import Mathlib

/-!
Shallow embedding of the baby-name duel backend (`src/app.py`), restricted to
one session's state: membership, per-participant list state, list items,
scores, the tie-break sub-protocol, invite locking and the status resolver.
Timestamps, notifications and activity logs are not observable by any claim
and are omitted; every early `return` of an endpoint is modelled as leaving
the state unchanged (the Python code only commits at the end of the
successful path, so pending ORM changes are rolled back on early returns).
-/

namespace BabyNames

/-- Session lifecycle status (`session.status`). -/
inductive Status
  | active
  | completed
  | archived
deriving DecidableEq, Repr

/-- Per-participant list state (`OwnerListState.status`). -/
inductive ListStatus
  | draft
  | submitted
deriving DecidableEq, Repr

/-- A `Member` row: uid (an email) and role string. -/
structure Member where
  uid : String
  role : String
deriving DecidableEq, Repr

/-- A `ListItem` row. -/
structure ListItem where
  owner_uid : String
  name : String
  self_rank : Int
deriving DecidableEq, Repr

/-- A `Score` row. -/
structure ScoreRow where
  list_owner_uid : String
  rater_uid : String
  name : String
  score_value : Int
deriving DecidableEq, Repr

/-- A `TieBreakVote` row. -/
structure TieBreakVote where
  rater_uid : String
  name : String
  rank : Int
deriving DecidableEq, Repr

/-- The state of one session together with all rows referencing it.
`max_names = 0` models a NULL / falsy `session.max_names` (the code reads it
as `session.max_names or 10`).  `tiebreak_names = []` models a NULL
`session.tiebreak_names`, and likewise for `final_winners` (the code decodes
NULL JSON columns to `[]` via `_load_json_array`). -/
structure SessionState where
  created_by : String
  max_names : Nat
  name_focus : String
  status : Status
  invites_locked : Bool
  template_ready : Bool
  tiebreak_active : Bool
  tiebreak_names : List String
  final_winners : List String
  members : List Member
  list_states : List (String × ListStatus)
  list_items : List ListItem
  scores : List ScoreRow
  tiebreak_votes : List TieBreakVote
deriving DecidableEq, Repr

/-- Python `value or 10` on the `max_names` column. -/
def orTen (n : Nat) : Nat := if n = 0 then 10 else n

/-- Association-list lookup on the first component (first match wins,
like a SQL `first()` on insertion-ordered rows / a Python dict lookup). -/
def alookup {α : Type} : List (String × α) → String → Option α
  | [], _ => none
  | p :: rest, k => if p.1 = k then some p.2 else alookup rest k

/-- Python `str.isspace` characters (ASCII range, which is all the
whitespace these inputs can carry). -/
def pyIsSpace (c : Char) : Bool := c.toNat ∈ [32, 9, 10, 13, 11, 12]

/-- Python `str.lower` on one character (ASCII case mapping). -/
def pyLowerChar (c : Char) : Char :=
  if 65 ≤ c.toNat ∧ c.toNat ≤ 90 then Char.ofNat (c.toNat + 32) else c

/-- Python `str.strip()`. -/
def pyStrip (s : String) : String :=
  String.mk (((s.data.dropWhile pyIsSpace).reverse.dropWhile pyIsSpace).reverse)

/-- Python `str.lower()`. -/
def pyLower (s : String) : String := String.mk (s.data.map pyLowerChar)

/-- `_normalize_email`: `(value or "").strip().lower()`. -/
def normalizeEmail (value : String) : String := pyLower (pyStrip value)

/-- ASCII `[A-Za-z0-9]`, as in the email regular expression. -/
def isAsciiAlnum (c : Char) : Bool :=
  (65 ≤ c.toNat ∧ c.toNat ≤ 90) ∨ (97 ≤ c.toNat ∧ c.toNat ≤ 122) ∨
    (48 ≤ c.toNat ∧ c.toNat ≤ 57)

/-- Characters allowed in a local-part atom of `EMAIL_REGEX`
(the class written there by its ASCII codes). -/
def isLocalChar (c : Char) : Bool :=
  isAsciiAlnum c ||
    c.toNat ∈ [33, 35, 36, 37, 38, 39, 42, 43, 47, 61, 63, 94, 95, 96,
      123, 124, 125, 126, 45]

/-- Split a character list at every occurrence of `sep` (like `str.split`). -/
def splitOnChar (sep : Char) : List Char → List (List Char)
  | [] => [[]]
  | c :: rest =>
    let tail := splitOnChar sep rest
    if c = sep then [] :: tail
    else
      match tail with
      | [] => [[c]]
      | t :: ts => (c :: t) :: ts

/-- One dot-separated atom of the local part: non-empty, all atom chars. -/
def isLocalAtom (l : List Char) : Bool :=
  !l.isEmpty && l.all isLocalChar

/-- One domain label of `EMAIL_REGEX`:
`[A-Za-z0-9](?:[A-Za-z0-9-]{0,61}[A-Za-z0-9])?`. -/
def isDomainLabel (l : List Char) : Bool :=
  match l with
  | [] => false
  | [c] => isAsciiAlnum c
  | c :: rest =>
    isAsciiAlnum c && rest.length ≤ 62 &&
      (rest.dropLast.all (fun d => isAsciiAlnum d || d.toNat = 45)) &&
      (match rest.getLast? with
       | some d => isAsciiAlnum d
       | none => false)

/-- `_is_valid_email`: length bound plus the anchored `EMAIL_REGEX`
(local atoms separated by dots, an `@`, and at least two domain labels). -/
def isValidEmail (value : String) : Bool :=
  if value = "" ∨ value.data.length > 320 then false
  else
    match splitOnChar '@' value.data with
    | [lp, dp] =>
      ((splitOnChar '.' lp).all isLocalAtom) &&
        (let labels := splitOnChar '.' dp
         labels.length ≥ 2 && labels.all isDomainLabel)
    | _ => false

/-- Roles counted as participants by `_recompute_session_status`. -/
def participantRoles : List String := ["owner", "voter", "participant"]

/-- `participant_uids`: uids of members whose role is owner/voter/participant. -/
def participantUids (s : SessionState) : List String :=
  (s.members.filter (fun m => m.role ∈ participantRoles)).map (fun m => m.uid)

/-- `names_by_owner.get(uid, [])`: the names of one owner's `ListItem` rows. -/
def ownerNames (s : SessionState) (uid : String) : List String :=
  (s.list_items.filter (fun r => r.owner_uid = uid)).map (fun r => r.name)

/-- The set of distinct names `rater` has scored on `owner`'s list
(`score_map` stores a Python `set`; we keep a deduplicated list). -/
def scoredNames (s : SessionState) (rater owner : String) : List String :=
  ((s.scores.filter (fun r => r.rater_uid = rater ∧ r.list_owner_uid = owner)).map
    (fun r => r.name)).dedup

/-- `_recompute_session_status`, as the pure function from state to the
status it writes back. -/
def recomputeTarget (s : SessionState) : Status :=
  let P := participantUids s
  if P = [] then .active
  else if ¬ (∀ uid ∈ P, alookup s.list_states uid = some ListStatus.submitted) then .active
  else if ¬ (∀ uid ∈ P, (ownerNames s uid).length = orTen s.max_names) then .active
  else if ¬ (∀ rater ∈ P, ∀ owner ∈ P, owner ≠ rater →
      (scoredNames s rater owner).length ≥ (ownerNames s owner).length) then .active
  else if s.invites_locked then .completed
  else .active

/-- `_recompute_session_status` including its write-back. -/
def recompute (s : SessionState) : SessionState :=
  { s with status := recomputeTarget s }

/-- `totals[k] = totals.get(k, 0) + v` on an insertion-ordered dict:
update the existing entry in place, or append a new one. -/
def bump (acc : List (String × Int)) (k : String) (v : Int) : List (String × Int) :=
  match acc with
  | [] => [(k, v)]
  | (k', v') :: rest => if k' = k then (k, v' + v) :: rest else (k', v') :: bump rest k v

/-- `_score_totals`: per-name sums of `score_value` over all Score rows. -/
def scoreTotals (rows : List ScoreRow) : List (String × Int) :=
  rows.foldl (fun acc r => bump acc r.name r.score_value) []

/-- `_first_place_tie_names`: all names whose total equals the minimum. -/
def firstPlaceTieNames (totals : List (String × Int)) : List String :=
  match totals with
  | [] => []
  | p :: rest =>
    let lowest := (rest.map (fun q => q.2)).foldl min p.2
    ((p :: rest).filter (fun q => q.2 = lowest)).map (fun q => q.1)

/-- First-occurrence deduplication (Python dict-comprehension key set). -/
def dedupFirstAux (seen : List String) : List String → List String
  | [] => []
  | x :: xs => if x ∈ seen then dedupFirstAux seen xs else x :: dedupFirstAux (x :: seen) xs

/-- `{name: 0 for name in names}` then `totals[row.name] += row.rank` for every
vote whose name is a key — the per-name rank sums used by tie-break close. -/
def closeTotals (names : List String) (votes : List TieBreakVote) : List (String × Int) :=
  votes.foldl
    (fun acc v => if (alookup acc v.name).isSome then bump acc v.name v.rank else acc)
    ((dedupFirstAux [] names).map (fun n => (n, 0)))

/-- Errors of `api_tiebreak_start`, `api_tiebreak_close` and
`api_lock_invites` (message text abstracted to constructors). -/
inductive TBErr
  | notOwner
  | alreadyCompleted
  | invitesOpen
  | alreadyActive
  | noTie
  | emailMismatch
  | invalidEmail
  | notHost
deriving DecidableEq, Repr

/-- `api_tiebreak_start` for an existing session.  On success the reply
carries the tied names.  No archived-status check appears in the source. -/
def tiebreakStart (s : SessionState) (actorEmail : String) :
    SessionState × Except TBErr (List String) :=
  let email := normalizeEmail actorEmail
  if s.created_by ≠ email then (s, .error .notOwner)
  else if s.status = .completed then (s, .error .alreadyCompleted)
  else if s.invites_locked = false then (s, .error .invitesOpen)
  else if s.tiebreak_active = true then (s, .error .alreadyActive)
  else
    let tied := firstPlaceTieNames (scoreTotals s.scores)
    if tied.length < 2 then (s, .error .noTie)
    else
      ({ s with
          tiebreak_active := true
          tiebreak_names := tied
          final_winners := []
          tiebreak_votes := [] }, .ok tied)

/-- `api_tiebreak_close` for an existing session.  The `Bool` in the reply is
the `alreadyClosed` flag.  No archived-status check appears in the source. -/
def tiebreakClose (s : SessionState) (actorEmail : String) :
    SessionState × Except TBErr (List String × Bool) :=
  let email := normalizeEmail actorEmail
  if s.created_by ≠ email then (s, .error .notOwner)
  else if s.tiebreak_active = false then (s, .ok (s.final_winners, true))
  else
    let names := s.tiebreak_names
    let votes := s.tiebreak_votes
    let totals := closeTotals names votes
    let tied := if votes = [] then names else firstPlaceTieNames totals
    let winners := if tied = [] then names else tied
    ({ s with
        final_winners := winners
        tiebreak_active := false
        tiebreak_names := []
        status := .completed }, .ok (winners, false))

/-- `api_lock_invites` for an existing session; ends by invoking
`_recompute_session_status`.  No archived-status check appears in the source. -/
def lockInvites (s : SessionState) (requestEmail : Option String)
    (actorEmail : String) : SessionState × Except TBErr Bool :=
  let reqE := normalizeEmail (requestEmail.getD "")
  let email := normalizeEmail actorEmail
  if reqE ≠ "" ∧ reqE ≠ email then (s, .error .emailMismatch)
  else if email = "" ∨ isValidEmail email = false then (s, .error .invalidEmail)
  else if s.created_by ≠ email then (s, .error .notHost)
  else if s.invites_locked = true then (s, .ok true)
  else (recompute { s with invites_locked := true }, .ok true)

/-- Errors of `api_submit_score` (message text abstracted to constructors;
`scoreValue` is taken as an integer, i.e. a request whose `int()` conversion
succeeds). -/
inductive ScoreErr
  | emailMismatch
  | invalidEmail
  | ownerOrNameMissing
  | outOfRange
  | archivedSession
  | completedSession
  | tiebreakInProgress
  | ownerNotSubmitted
  | notParticipant
  | selfScore
  | raterNotSubmitted
  | nameNotInList
  | rankReused
deriving DecidableEq, Repr

/-- Arguments of `api_submit_score` after JSON decoding. -/
structure ScoreArgs where
  request_email : Option String
  email : String
  list_owner : String
  name : String
  value : Int
deriving Repr

/-- Mutate the first Score row matching `(owner, rater, name)` to carry
`value` (the ORM updates the single row returned by `next(...)`). -/
def updateFirstScore (owner rater name : String) (value : Int) :
    List ScoreRow → List ScoreRow
  | [] => []
  | row :: rest =>
    if row.list_owner_uid = owner ∧ row.rater_uid = rater ∧ row.name = name then
      { row with score_value := value } :: rest
    else
      row :: updateFirstScore owner rater name value rest

/-- The successful write of `api_submit_score`: upsert the Score row keyed by
`(owner, rater, name)`, then run `_recompute_session_status`. -/
def applyScoreWrite (s : SessionState) (owner rater name : String)
    (value : Int) : SessionState :=
  let existing := s.scores.filter
    (fun r => r.list_owner_uid = owner ∧ r.rater_uid = rater)
  let scores' :=
    if existing.any (fun r => r.name = name) then
      updateFirstScore owner rater name value s.scores
    else
      s.scores ++ [⟨owner, rater, name, value⟩]
  recompute { s with scores := scores' }

/-- The checks of `api_submit_score` that precede the rank-uniqueness scan,
in source order (the range check sits before the archived check). -/
def scorePre (s : SessionState) (a : ScoreArgs) : Except ScoreErr Unit :=
  let reqE := normalizeEmail (a.request_email.getD "")
  let email := normalizeEmail a.email
  if reqE ≠ "" ∧ reqE ≠ email then .error .emailMismatch
  else
    let owner := normalizeEmail a.list_owner
    let name := pyStrip a.name
    if email = "" ∨ isValidEmail email = false then .error .invalidEmail
    else if owner = "" ∨ name = "" then .error .ownerOrNameMissing
    else
      let maxN := orTen s.max_names
      if a.value < 1 ∨ a.value > (maxN : Int) then .error .outOfRange
      else if s.status = .archived then .error .archivedSession
      else if s.status = .completed then .error .completedSession
      else if s.tiebreak_active = true then .error .tiebreakInProgress
      else if ¬ alookup s.list_states owner = some ListStatus.submitted then
        .error .ownerNotSubmitted
      else if s.members.find? (fun m => m.uid = email) = none then
        .error .notParticipant
      else if email = owner then .error .selfScore
      else if ¬ alookup s.list_states email = some ListStatus.submitted then
        .error .raterNotSubmitted
      else if name ∉ ownerNames s owner then .error .nameNotInList
      else .ok ()

/-- The rank-reuse scan: some existing score of this (listOwner, rater) pair
already holds `value` under a different name. -/
def scoreConflict (s : SessionState) (a : ScoreArgs) : Bool :=
  (s.scores.filter (fun r => r.list_owner_uid = normalizeEmail a.list_owner ∧
      r.rater_uid = normalizeEmail a.email)).any
    (fun r => r.score_value = a.value ∧ r.name ≠ pyStrip a.name)

/-- `api_submit_score` for an existing session: either the first failing
check, or the state after the write. -/
def submitScoreCore (s : SessionState) (a : ScoreArgs) :
    Except ScoreErr SessionState :=
  match scorePre s a with
  | .error e => .error e
  | .ok _ =>
    if scoreConflict s a = true then .error .rankReused
    else .ok (applyScoreWrite s (normalizeEmail a.list_owner)
      (normalizeEmail a.email) (pyStrip a.name) a.value)

/-- `api_submit_score`: every failing check leaves the state unchanged
(the code only commits on the successful path). -/
def submitScore (s : SessionState) (a : ScoreArgs) :
    SessionState × Option ScoreErr :=
  match submitScoreCore s a with
  | .error e => (s, some e)
  | .ok s' => (s', none)

/-- Errors of `api_upsert_list` (message text abstracted to constructors;
`slotCount` is taken as an integer when present, i.e. a request whose `int()`
conversion succeeds; likewise the self-rank values). -/
inductive UErr
  | emailMismatch
  | invalidEmail
  | archivedSession
  | completedSession
  | slotOutOfRange
  | mixParity
  | singleParity
  | notParticipantRole
  | duplicateName
  | rankOutOfRange
  | wrongCount
  | notPermutation
  | alreadySubmitted
deriving DecidableEq, Repr

/-- Arguments of `api_upsert_list` after JSON decoding. -/
structure UpsertArgs where
  request_email : Option String
  email : String
  names : List String
  self_ranks : List (String × Int)
  finalize : Bool
  slot_count : Option Int
deriving Repr

/-- `current_max = session.max_names or 10`. -/
def currentMax (s : SessionState) : Nat := orTen s.max_names

/-- `slot_count` after parsing and the `None`/non-positive fallback. -/
def effectiveSlot (s : SessionState) (a : UpsertArgs) : Int :=
  match a.slot_count with
  | none => (currentMax s : Int)
  | some v => if v ≤ 0 then (currentMax s : Int) else v

/-- `session.max_names` after the owner's template branch
(assigned only when the actor is the creator and the slot differs). -/
def maxNamesAfter (s : SessionState) (a : UpsertArgs) : Nat :=
  if s.created_by = normalizeEmail a.email ∧
      effectiveSlot s a ≠ (currentMax s : Int) then
    (effectiveSlot s a).toNat
  else s.max_names

/-- `max_names = session.max_names or slot_count or 10`, read after the
owner's template branch. -/
def effectiveMax (s : SessionState) (a : UpsertArgs) : Nat :=
  if maxNamesAfter s a ≠ 0 then maxNamesAfter s a
  else if effectiveSlot s a ≠ 0 then (effectiveSlot s a).toNat
  else 10

/-- `session.name_focus or "mix"`. -/
def focusOf (s : SessionState) : String :=
  if s.name_focus = "" then "mix" else s.name_focus

/-- `rank_value = self_ranks.get(name)` falling back to the trimmed key and
then to the 1-based position. -/
def resolveRank (selfRanks : List (String × Int)) (rawName trimmed : String)
    (idx : Nat) : Int :=
  match alookup selfRanks rawName with
  | some v => v
  | none =>
    match alookup selfRanks trimmed with
    | some v => v
    | none => (idx : Int) + 1

/-- The name-cleaning loop of `api_upsert_list`: trims, skips blanks,
rejects case-insensitive duplicates, resolves ranks, and (only when
finalizing) rejects out-of-range ranks. -/
def cleanLoop (selfRanks : List (String × Int)) (maxN : Nat) (finalize : Bool) :
    Nat → List String → List String → Except UErr (List (String × Int))
  | _, _, [] => .ok []
  | idx, seen, name :: rest =>
    let trimmed := pyStrip name
    if trimmed = "" then cleanLoop selfRanks maxN finalize (idx + 1) seen rest
    else
      let lowered := pyLower trimmed
      if lowered ∈ seen then .error .duplicateName
      else
        let rank := resolveRank selfRanks name trimmed idx
        if (rank < 1 ∨ rank > (maxN : Int)) ∧ finalize = true then
          .error .rankOutOfRange
        else
          match cleanLoop selfRanks maxN finalize (idx + 1) (lowered :: seen) rest with
          | .error e => .error e
          | .ok tail => .ok ((trimmed, rank) :: tail)

/-- The `cleaned` list of `api_upsert_list` (before the finalize checks and
the draft clamping). -/
def cleanNames (a : UpsertArgs) (maxN : Nat) : Except UErr (List (String × Int)) :=
  cleanLoop a.self_ranks maxN a.finalize 0 [] a.names

/-- `[1, ..., n]` as integers. -/
def intRange1 (n : Nat) : List Int := (List.range n).map (fun i => (i : Int) + 1)

/-- `len(rank_set) == max_names and rank_set == set(range(1, max_names + 1))`. -/
def isPermRange (ranks : List Int) (n : Nat) : Bool :=
  ranks.dedup.length = n && ranks.dedup.all (fun r => r ∈ intRange1 n) &&
    (intRange1 n).all (fun r => r ∈ ranks.dedup)

/-- `_ensure_owner_list_state`: create a draft row when none exists. -/
def ensureListState (s : SessionState) (uid : String) : SessionState :=
  if (alookup s.list_states uid).isSome then s
  else { s with list_states := s.list_states ++ [(uid, ListStatus.draft)] }

/-- Mutate the first list-state row of `uid` (the ORM updates the single row
returned by `first()`). -/
def updateFirstState (uid : String) (st : ListStatus) :
    List (String × ListStatus) → List (String × ListStatus)
  | [] => []
  | p :: rest =>
    if p.1 = uid then (p.1, st) :: rest else p :: updateFirstState uid st rest

/-- The session after the owner's template branch (`session.max_names`
assignment and `session.template_ready = True`). -/
def upsertS1 (s : SessionState) (a : UpsertArgs) : SessionState :=
  if s.created_by = normalizeEmail a.email then
    { s with max_names := maxNamesAfter s a, template_ready := true }
  else s

/-- The draft-branch clamping `max(0, min(rank, max_names))` (finalized
lists are written as cleaned). -/
def clampDraft (cleaned0 : List (String × Int)) (maxN : Nat) (finalize : Bool) :
    List (String × Int) :=
  if finalize = true then cleaned0
  else cleaned0.map (fun p => (p.1, max 0 (min p.2 (maxN : Int))))

/-- The successful write of `api_upsert_list`: delete and rewrite the
caller's `ListItem` rows, update their list state, then run
`_recompute_session_status`. -/
def upsertWrite (s : SessionState) (a : UpsertArgs)
    (cleaned : List (String × Int)) : SessionState :=
  let email := normalizeEmail a.email
  let s2 := ensureListState (upsertS1 s a) email
  let newStatus := if a.finalize = true then ListStatus.submitted
    else ListStatus.draft
  recompute { s2 with
    list_items := (s2.list_items.filter (fun r => ¬ r.owner_uid = email)) ++
      cleaned.map (fun p => ⟨email, p.1, p.2⟩),
    list_states := updateFirstState email newStatus s2.list_states }

/-- The leading checks of `api_upsert_list` (everything before the
name-cleaning loop): request-email mismatch, email validity, archived and
completed status, the owner's template validation, and the membership/role
gate. -/
def upsertPre (s : SessionState) (a : UpsertArgs) : Except UErr Unit :=
  let reqE := normalizeEmail (a.request_email.getD "")
  let email := normalizeEmail a.email
  if reqE ≠ "" ∧ reqE ≠ email then .error .emailMismatch
  else if email = "" ∨ isValidEmail email = false then .error .invalidEmail
  else if s.status = .archived then .error .archivedSession
  else if s.status = .completed then .error .completedSession
  else
    let slot := effectiveSlot s a
    if s.created_by = email ∧ (slot < 4 ∨ slot > 100) then .error .slotOutOfRange
    else if s.created_by = email ∧ (focusOf s = "mix" ∧ slot % 4 ≠ 0) then
      .error .mixParity
    else if s.created_by = email ∧
        ((focusOf s = "girl" ∨ focusOf s = "boy") ∧ slot % 2 ≠ 0) then
      .error .singleParity
    else
      match s.members.find? (fun m => m.uid = email) with
      | none => .error .notParticipantRole
      | some m =>
        if m.role ∉ participantRoles then .error .notParticipantRole
        else .ok ()

/-- `api_upsert_list` for an existing session: either the first failing
check, or the state after the rewrite plus the resulting list status. -/
def upsertCore (s : SessionState) (a : UpsertArgs) :
    Except UErr (SessionState × ListStatus) :=
  match upsertPre s a with
  | .error e => .error e
  | .ok _ =>
    match cleanNames a (effectiveMax s a) with
    | .error e => .error e
    | .ok cleaned0 =>
      if a.finalize = true ∧ cleaned0.length ≠ effectiveMax s a then
        .error .wrongCount
      else if a.finalize = true ∧
          isPermRange (cleaned0.map (fun p => p.2)) (effectiveMax s a) = false then
        .error .notPermutation
      else if alookup (ensureListState (upsertS1 s a)
          (normalizeEmail a.email)).list_states
          (normalizeEmail a.email) = some ListStatus.submitted then
        .error .alreadySubmitted
      else
        .ok (upsertWrite s a (clampDraft cleaned0 (effectiveMax s a) a.finalize),
          if a.finalize = true then ListStatus.submitted
          else ListStatus.draft)

/-- `api_upsert_list`: every failing check leaves the state unchanged
(the code only commits on the successful path). -/
def upsertList (s : SessionState) (a : UpsertArgs) :
    SessionState × Except UErr ListStatus :=
  match upsertCore s a with
  | .error e => (s, .error e)
  | .ok (s', st) => (s', .ok st)

/-- `Except.isOk` spelled out locally. -/
def exceptOk {ε α : Type} : Except ε α → Bool
  | .ok _ => true
  | .error _ => false

/-- The error component of an endpoint outcome. -/
def errOf {ε α : Type} : Except ε α → Option ε
  | .error e => some e
  | .ok _ => none

/-- Turn a gate outcome into the first failure, with `tail` as what the
remaining checks produce. -/
def exceptToOpt {ε : Type} (tail : Option ε) : Except ε Unit → Option ε
  | .error e => some e
  | .ok _ => tail

instance {ε α : Type} [DecidableEq ε] [DecidableEq α] : DecidableEq (Except ε α)
  | .error a, .error b =>
    if h : a = b then isTrue (h ▸ rfl)
    else isFalse (fun hh => h (Except.error.inj hh))
  | .error _, .ok _ => isFalse (fun hh => Except.noConfusion hh)
  | .ok _, .error _ => isFalse (fun hh => Except.noConfusion hh)
  | .ok a, .ok b =>
    if h : a = b then isTrue (h ▸ rfl)
    else isFalse (fun hh => h (Except.ok.inj hh))

/-- The completion condition as the claim states it: non-empty participant
set, every participant submitted, every participant's item count equals the
required-name-count, full cross-pair distinct-name scoring coverage, and
invites locked. -/
def completedPerClaim (s : SessionState) : Prop :=
  participantUids s ≠ [] ∧
  (∀ uid ∈ participantUids s, alookup s.list_states uid = some ListStatus.submitted) ∧
  (∀ uid ∈ participantUids s, (ownerNames s uid).length = orTen s.max_names) ∧
  (∀ rater ∈ participantUids s, ∀ owner ∈ participantUids s, owner ≠ rater →
    (scoredNames s rater owner).length ≥ (ownerNames s owner).length) ∧
  s.invites_locked = true

/-- The amended check order of `submitScore`, written from the amended
claim: email mismatch, email validity, owner/name presence, then — for the
found session — the value-range check BEFORE the archived and completed
checks, then tie-break, owner list submitted, membership, self-score,
rater list submitted, name membership, and rank-reuse last. -/
def amendedScoreOrder (s : SessionState) (a : ScoreArgs) : Option ScoreErr :=
  let reqE := normalizeEmail (a.request_email.getD "")
  let email := normalizeEmail a.email
  let owner := normalizeEmail a.list_owner
  let name := pyStrip a.name
  if reqE ≠ "" ∧ reqE ≠ email then some .emailMismatch
  else if email = "" ∨ isValidEmail email = false then some .invalidEmail
  else if owner = "" ∨ name = "" then some .ownerOrNameMissing
  else if a.value < 1 ∨ a.value > (orTen s.max_names : Int) then some .outOfRange
  else if s.status = .archived then some .archivedSession
  else if s.status = .completed then some .completedSession
  else if s.tiebreak_active = true then some .tiebreakInProgress
  else if ¬ alookup s.list_states owner = some ListStatus.submitted then
    some .ownerNotSubmitted
  else if s.members.find? (fun m => m.uid = email) = none then
    some .notParticipant
  else if email = owner then some .selfScore
  else if ¬ alookup s.list_states email = some ListStatus.submitted then
    some .raterNotSubmitted
  else if name ∉ ownerNames s owner then some .nameNotInList
  else if (s.scores.filter
      (fun r => r.list_owner_uid = owner ∧ r.rater_uid = email)).any
      (fun r => r.score_value = a.value ∧ r.name ≠ name) then
    some .rankReused
  else none

/-- No two Score rows of the same (listOwner, rater) share a score-value. -/
def scoresValueUniq (l : List ScoreRow) : Prop :=
  l.Pairwise (fun x y => x.list_owner_uid = y.list_owner_uid →
    x.rater_uid = y.rater_uid → x.score_value ≠ y.score_value)

/-- No two Score rows share the full (listOwner, rater, name) key. -/
def scoresKeyUniq (l : List ScoreRow) : Prop :=
  l.Pairwise (fun x y => ¬ (x.list_owner_uid = y.list_owner_uid ∧
    x.rater_uid = y.rater_uid ∧ x.name = y.name))

/-- The upsert key of a Score row: (listOwner, rater, name). -/
def scoreKeyMatch (o r n : String) (x : ScoreRow) : Prop :=
  x.list_owner_uid = o ∧ x.rater_uid = r ∧ x.name = n

instance (o r n : String) (x : ScoreRow) : Decidable (scoreKeyMatch o r n x) := by
  unfold scoreKeyMatch
  infer_instance

/-- Sum of `score_value` over all Score rows bearing a given name string. -/
def sumScores (rows : List ScoreRow) (n : String) : Int :=
  ((rows.filter (fun r => r.name = n)).map (fun r => r.score_value)).sum

/-- Sum of tie-break ranks cast for a given name. -/
def sumRanks (votes : List TieBreakVote) (n : String) : Int :=
  ((votes.filter (fun v => v.name = n)).map (fun v => v.rank)).sum

/-- A two-participant session used by concrete witnesses. -/
def exBase : SessionState :=
  { created_by := "o@x.co"
    max_names := 8
    name_focus := "mix"
    status := .active
    invites_locked := false
    template_ready := true
    tiebreak_active := false
    tiebreak_names := []
    final_winners := []
    members := [⟨"p@x.co", "participant"⟩, ⟨"o@x.co", "owner"⟩]
    list_states := [("p@x.co", ListStatus.draft)]
    list_items := []
    scores := []
    tiebreak_votes := [] }

/-- Archived session with open invites and no members: locking invites on it
succeeds and recomputes the status away from `archived`. -/
def c2state : SessionState :=
  { exBase with status := .archived, members := [], list_states := [] }

/-- Archived session with locked invites and a two-way first-place tie:
starting a tie-break on it succeeds. -/
def c2startState : SessionState :=
  { exBase with
    status := .archived
    invites_locked := true
    scores := [⟨"o@x.co", "p@x.co", "a", 1⟩, ⟨"o@x.co", "q@x.co", "b", 1⟩] }

/-- Archived session with an active two-name tie-break and no cast votes:
closing it succeeds and rewrites the status to `completed`. -/
def c2closeState : SessionState :=
  { exBase with
    status := .archived
    tiebreak_active := true
    tiebreak_names := ["a", "b"] }

/-- Archived session used to show the range error fires before the
archived-session check. -/
def c4state : SessionState := { exBase with status := .archived }

/-- Score-submission against an archived session with an out-of-range value. -/
def c4args : ScoreArgs :=
  { request_email := none
    email := "p@x.co"
    list_owner := "o@x.co"
    name := "n"
    value := 99 }

/-- Finalize attempt with 7 names when 8 are required. -/
def c3args : UpsertArgs :=
  { request_email := none
    email := "p@x.co"
    names := ["a", "b", "c", "d", "e", "f", "g"]
    self_ranks := []
    finalize := true
    slot_count := none }

/-- Draft autosave carrying a negative self-rank. -/
def c8args : UpsertArgs :=
  { request_email := none
    email := "p@x.co"
    names := ["a"]
    self_ranks := [("a", -5)]
    finalize := false
    slot_count := none }

/-- Draft autosave by `p@x.co` used against an already-submitted list. -/
def c9args : UpsertArgs :=
  { request_email := none
    email := "p@x.co"
    names := ["x", "y"]
    self_ranks := []
    finalize := false
    slot_count := none }

/-- Session whose participant `p@x.co` has already submitted. -/
def c9state : SessionState :=
  { exBase with list_states := [("p@x.co", ListStatus.submitted)] }

/-- State for a successful score submission (both lists submitted). -/
def c5state : SessionState :=
  { exBase with
    list_states := [("p@x.co", ListStatus.submitted), ("o@x.co", ListStatus.submitted)]
    list_items := [⟨"o@x.co", "n", 1⟩] }

/-- A valid in-range score submission by `p@x.co` on `o@x.co`'s name. -/
def c5args : ScoreArgs :=
  { request_email := none
    email := "p@x.co"
    list_owner := "o@x.co"
    name := "n"
    value := 3 }

/-- State with locked invites and a two-way first-place tie. -/
def c6state : SessionState :=
  { exBase with
    invites_locked := true
    scores := [⟨"o@x.co", "p@x.co", "a", 1⟩, ⟨"o@x.co", "q@x.co", "b", 1⟩] }

/-- Active tie-break with two candidates and no cast votes. -/
def c7state : SessionState :=
  { exBase with
    invites_locked := true
    tiebreak_active := true
    tiebreak_names := ["a", "b"] }

/-- State for a completed-session witness of the status resolver: one
participant, submitted, full list, invites locked (no cross pair needed). -/
def c1state : SessionState :=
  { exBase with
    max_names := 4
    invites_locked := true
    members := [⟨"o@x.co", "owner"⟩]
    list_states := [("o@x.co", ListStatus.submitted)]
    list_items := [⟨"o@x.co", "a", 1⟩, ⟨"o@x.co", "b", 2⟩,
      ⟨"o@x.co", "c", 3⟩, ⟨"o@x.co", "d", 4⟩] }

/-- C1: the status recomputation sets the session status to `completed` if
and only if the participant set is non-empty, every participant has a
submitted list state, every participant's ListItem count equals the
required-name-count, every ordered cross pair has full distinct-name scoring
coverage, and invites are locked; in every other case it computes `active`. -/
theorem claim1_completion_gate (s : SessionState) :
    ((recompute s).status = Status.completed ↔ completedPerClaim s) ∧
    ((recompute s).status = Status.completed ∨
      (recompute s).status = Status.active) := by
  unfold recompute recomputeTarget completedPerClaim
  simp only
  split_ifs with h1 h2 h3 h4 h5 <;> simp_all

/-- C4 counterexample: on an archived session, a score submission with an
out-of-range value fails with the range error, not the archived-session
error the claim predicts. -/
theorem claim4_counterexample :
    c4state.status = Status.archived ∧
    (submitScore c4state c4args).2 = some ScoreErr.outOfRange ∧
    ScoreErr.outOfRange ≠ ScoreErr.archivedSession := by decide

/-- C4 amended: `submitScore` evaluates its preconditions in this exact
order, the first failing one determining the error: email mismatch, email
validity, owner/name presence, value an integer in [1, requiredNames],
THEN session not archived, not completed, no active tie-break, listOwner's
list submitted, rater membership, rater ≠ listOwner, rater's list
submitted, name in listOwner's list, and rank-reuse last. -/
theorem claim4_amended_order (s : SessionState) (a : ScoreArgs) :
    (submitScore s a).2 = amendedScoreOrder s a := by
  have h1 : (submitScore s a).2 = errOf (submitScoreCore s a) := by
    unfold submitScore
    cases submitScoreCore s a <;> rfl
  have h2 : amendedScoreOrder s a =
      exceptToOpt (if scoreConflict s a = true then some ScoreErr.rankReused
        else none) (scorePre s a) := by
    unfold amendedScoreOrder scorePre
    simp only [apply_ite (exceptToOpt (ε := ScoreErr)
      (if scoreConflict s a = true then some ScoreErr.rankReused else none))]
    rfl
  rw [h1, h2]
  unfold submitScoreCore
  cases hp : scorePre s a with
  | error e => rfl
  | ok u =>
    by_cases hc : scoreConflict s a = true
    · rw [if_pos hc, if_pos hc]
      rfl
    · rw [if_neg hc, if_neg hc]
      rfl

/-- C2: the code contradicts the spec's terminal-archived rule at these
concrete inputs: locking invites on an archived session succeeds and
rewrites the status to `active` (the re-run status resolver never yields
`archived`), starting a tie-break on an archived session with locked
invites and a two-way tie activates it, and closing an active tie-break on
an archived session rewrites the status to `completed`. -/
theorem claim2_archived_mutation :
    c2state.status = Status.archived ∧
    lockInvites c2state none "o@x.co" =
      ({ c2state with invites_locked := true, status := Status.active },
        .ok true) ∧
    c2startState.status = Status.archived ∧
    (tiebreakStart c2startState "o@x.co").1.tiebreak_active = true ∧
    (tiebreakStart c2startState "o@x.co").2 = .ok ["a", "b"] ∧
    c2closeState.status = Status.archived ∧
    (tiebreakClose c2closeState "o@x.co").1.status = Status.completed ∧
    (tiebreakClose c2closeState "o@x.co").1.final_winners = ["a", "b"] := by
  decide

/-- On an archived session the leading checks of `api_upsert_list` always
fail (some earlier check may fire first, but the archived check blocks every
remaining path). -/
theorem upsertPre_archived_err {s : SessionState}
    (h : s.status = Status.archived) (a : UpsertArgs) :
    exceptOk (upsertPre s a) = false := by
  simp [upsertPre, h, apply_ite (exceptOk (ε := UErr) (α := Unit)), exceptOk]
  split_ifs <;> rfl

/-- On an archived session `upsertCore` always fails. -/
theorem upsertCore_archived_err {s : SessionState}
    (h : s.status = Status.archived) (a : UpsertArgs) :
    exceptOk (upsertCore s a) = false := by
  unfold upsertCore
  cases hp : upsertPre s a with
  | error e => rfl
  | ok u =>
    have hh := upsertPre_archived_err h a
    rw [hp] at hh
    exact absurd hh (by simp [exceptOk])

/-- A failed `upsertCore` means `upsertList` returns the state unchanged. -/
theorem upsertList_of_err {s : SessionState} {a : UpsertArgs}
    (h : exceptOk (upsertCore s a) = false) :
    (upsertList s a).1 = s ∧ exceptOk (upsertList s a).2 = false := by
  unfold upsertList
  cases hc : upsertCore s a with
  | error e => exact ⟨rfl, rfl⟩
  | ok p => rw [hc] at h; simp [exceptOk] at h

/-- On an archived session the leading checks of `api_submit_score` always
fail. -/
theorem scorePre_archived_err {s : SessionState}
    (h : s.status = Status.archived) (a : ScoreArgs) :
    exceptOk (scorePre s a) = false := by
  simp [scorePre, h, apply_ite (exceptOk (ε := ScoreErr) (α := Unit)), exceptOk]
  split_ifs <;> rfl

/-- On an archived session `submitScoreCore` always fails. -/
theorem submitScoreCore_archived_err {s : SessionState}
    (h : s.status = Status.archived) (a : ScoreArgs) :
    exceptOk (submitScoreCore s a) = false := by
  unfold submitScoreCore
  cases hp : scorePre s a with
  | error e => rfl
  | ok u =>
    have hh := scorePre_archived_err h a
    rw [hp] at hh
    exact absurd hh (by simp [exceptOk])

/-- A failed `submitScoreCore` means `submitScore` returns the state
unchanged together with some error. -/
theorem submitScore_of_err {s : SessionState} {a : ScoreArgs}
    (h : exceptOk (submitScoreCore s a) = false) :
    (submitScore s a).1 = s ∧ ((submitScore s a).2).isSome = true := by
  unfold submitScore
  cases hc : submitScoreCore s a with
  | error e => exact ⟨rfl, rfl⟩
  | ok s' => rw [hc] at h; simp [exceptOk] at h

/-- List saves and score submissions are rejected on archived sessions, but
tie-break start, tie-break close and invite locking perform no archived
check: with their remaining preconditions satisfied they succeed and mutate
the archived session (invite locking re-runs the status resolver, which
never yields `archived`; closing an active tie-break forces the status to
`completed`).  This general statement backs the concrete observations of
`claim2_archived_mutation` over every archived state. -/
theorem archivedChecksMissing (s : SessionState) (actor : String)
    (harch : s.status = Status.archived)
    (howner : s.created_by = normalizeEmail actor) :
    (isValidEmail (normalizeEmail actor) = true → s.invites_locked = false →
      lockInvites s none actor =
        (recompute { s with invites_locked := true }, .ok true)) ∧
    (s.tiebreak_active = true →
      (tiebreakClose s actor).1.status = Status.completed ∧
        exceptOk (tiebreakClose s actor).2 = true) ∧
    (s.invites_locked = true → s.tiebreak_active = false →
      2 ≤ (firstPlaceTieNames (scoreTotals s.scores)).length →
      (tiebreakStart s actor).1.tiebreak_active = true ∧
        exceptOk (tiebreakStart s actor).2 = true) ∧
    (∀ a : UpsertArgs,
      (upsertList s a).1 = s ∧ exceptOk (upsertList s a).2 = false) ∧
    (∀ a : ScoreArgs,
      (submitScore s a).1 = s ∧ ((submitScore s a).2).isSome = true) := by
  refine ⟨?_, ?_, ?_, ?_, ?_⟩
  · intro hvalid hunlocked
    simp only [lockInvites]
    rw [if_neg (fun hc => hc.1 (by decide)),
      if_neg (fun hc => by
        rcases hc with hc | hc
        · rw [hc] at hvalid; exact absurd hvalid (by decide)
        · rw [hvalid] at hc; exact Bool.true_eq_false.mp hc),
      if_neg (fun hc => hc howner),
      if_neg (by simp [hunlocked])]
  · intro hact
    simp only [tiebreakClose]
    rw [if_neg (fun hc => hc howner), if_neg (by simp [hact])]
    exact ⟨rfl, rfl⟩
  · intro hlock hact hlen
    simp only [tiebreakStart]
    rw [if_neg (fun hc => hc howner),
      if_neg (by rw [harch]; exact fun hc => Status.noConfusion hc),
      if_neg (by simp [hlock]),
      if_neg (by simp [hact]),
      if_neg (by omega)]
    exact ⟨rfl, rfl⟩
  · exact fun a => upsertList_of_err (upsertCore_archived_err harch a)
  · exact fun a => submitScore_of_err (submitScoreCore_archived_err harch a)

/-- Appending a fresh key to an association list makes it found. -/
theorem alookup_append_single {α : Type} (l : List (String × α)) (u : String)
    (v : α) (h : alookup l u = none) : alookup (l ++ [(u, v)]) u = some v := by
  induction l with
  | nil => simp [alookup]
  | cons p rest ih =>
    by_cases hp : p.1 = u
    · rw [alookup, if_pos hp] at h
      exact absurd h (by simp)
    · rw [alookup, if_neg hp] at h
      rw [List.cons_append, alookup, if_neg hp]
      exact ih h

/-- After `_ensure_owner_list_state` the uid always has a list state, the
existing one or a fresh draft. -/
theorem alookup_ensure (t : SessionState) (u : String) :
    alookup (ensureListState t u).list_states u =
      some ((alookup t.list_states u).getD ListStatus.draft) := by
  unfold ensureListState
  cases h : alookup t.list_states u with
  | some v => simp [h]
  | none => simp [h, alookup_append_single t.list_states u ListStatus.draft h]

/-- The owner template branch never touches the list states. -/
theorem upsertS1_list_states (s : SessionState) (a : UpsertArgs) :
    (upsertS1 s a).list_states = s.list_states := by
  unfold upsertS1
  split_ifs <;> rfl

/-- Inversion of a successful `upsertCore`: the clean pipeline succeeded,
the finalize checks passed, the caller had not submitted, and the result is
exactly the rewrite of the cleaned (or clamped) list. -/
theorem upsertCore_ok_inv {s : SessionState} {a : UpsertArgs}
    {p : SessionState × ListStatus} (h : upsertCore s a = .ok p) :
    ∃ cleaned0,
      cleanNames a (effectiveMax s a) = .ok cleaned0 ∧
      ¬ (a.finalize = true ∧ cleaned0.length ≠ effectiveMax s a) ∧
      ¬ (a.finalize = true ∧
        isPermRange (cleaned0.map (fun q => q.2)) (effectiveMax s a) = false) ∧
      ¬ alookup (ensureListState (upsertS1 s a) (normalizeEmail a.email)).list_states
          (normalizeEmail a.email) = some ListStatus.submitted ∧
      p = (upsertWrite s a (clampDraft cleaned0 (effectiveMax s a) a.finalize),
        if a.finalize = true then ListStatus.submitted else ListStatus.draft) := by
  unfold upsertCore at h
  cases hp : upsertPre s a with
  | error e => rw [hp] at h; exact absurd h (by simp)
  | ok u =>
    rw [hp] at h
    cases hc : cleanNames a (effectiveMax s a) with
    | error e => rw [hc] at h; exact absurd h (by simp)
    | ok cleaned0 =>
      rw [hc] at h
      simp only at h
      split_ifs at h with h9 h10 h11 hfin
      · exact ⟨cleaned0, rfl, h9, h10, h11,
          by rw [if_pos hfin]; exact (Except.ok.inj h).symm⟩
      · exact ⟨cleaned0, rfl, h9, h10, h11,
          by rw [if_neg hfin]; exact (Except.ok.inj h).symm⟩

/-- Inversion of a successful `upsertList`. -/
theorem upsertList_ok_inv {s : SessionState} {a : UpsertArgs} {st : ListStatus}
    (h : (upsertList s a).2 = .ok st) :
    upsertCore s a = .ok ((upsertList s a).1, st) := by
  unfold upsertList at h ⊢
  cases hc : upsertCore s a with
  | error e => rw [hc] at h; exact absurd h (by simp)
  | ok p =>
    obtain ⟨s', st'⟩ := p
    rw [hc] at h
    simp only at h
    obtain rfl : st' = st := Except.ok.inj h
    rfl

/-- C3: a finalize call whose cleaned list has the wrong length or whose
ranks are not a permutation of 1..requiredNames fails and performs no
write; a call whose cleaning itself fails (duplicates, out-of-range ranks)
also fails without a write. -/
theorem claim3_finalize_validation (s : SessionState) (a : UpsertArgs)
    (hfin : a.finalize = true) :
    (∀ cleaned0, cleanNames a (effectiveMax s a) = .ok cleaned0 →
      (cleaned0.length ≠ effectiveMax s a ∨
        isPermRange (cleaned0.map (fun q => q.2)) (effectiveMax s a) = false) →
      (upsertList s a).1 = s ∧ exceptOk (upsertList s a).2 = false) ∧
    (∀ e, cleanNames a (effectiveMax s a) = .error e →
      (upsertList s a).1 = s ∧ exceptOk (upsertList s a).2 = false) := by
  constructor
  · intro cleaned0 hc hbad
    refine upsertList_of_err ?_
    cases hcore : upsertCore s a with
    | error e => rfl
    | ok p =>
      obtain ⟨c0, hc', h9, h10, _, _⟩ := upsertCore_ok_inv hcore
      rw [hc] at hc'
      obtain rfl : cleaned0 = c0 := Except.ok.inj hc'
      rcases hbad with hb | hb
      · exact absurd ⟨hfin, hb⟩ h9
      · exact absurd ⟨hfin, hb⟩ h10
  · intro e hc
    refine upsertList_of_err ?_
    cases hcore : upsertCore s a with
    | error e' => rfl
    | ok p =>
      obtain ⟨c0, hc', _, _, _, _⟩ := upsertCore_ok_inv hcore
      rw [hc] at hc'
      exact absurd hc' (by simp)

/-- C3 witness: submitting 7 names when 8 are required (finalize) fails and
leaves the state untouched. -/
theorem claim3_witness :
    (upsertList exBase c3args).1 = exBase ∧
      exceptOk (upsertList exBase c3args).2 = false :=
  (claim3_finalize_validation exBase c3args (by decide)).1
    [("a", 1), ("b", 2), ("c", 3), ("d", 4), ("e", 5), ("f", 6), ("g", 7)]
    (by decide) (Or.inl (by decide))

/-- C9: once a participant's list state is `submitted`, every further
saveList call by them — finalize or not — is rejected and leaves the state
unchanged. -/
theorem claim9_submitted_immutable (s : SessionState) (a : UpsertArgs)
    (hsub : alookup s.list_states (normalizeEmail a.email) =
      some ListStatus.submitted) :
    (upsertList s a).1 = s ∧ exceptOk (upsertList s a).2 = false := by
  refine upsertList_of_err ?_
  cases hcore : upsertCore s a with
  | error e => rfl
  | ok p =>
    obtain ⟨c0, _, _, _, hns, _⟩ := upsertCore_ok_inv hcore
    refine absurd ?_ hns
    rw [alookup_ensure, upsertS1_list_states, hsub]
    rfl

/-- C9 witness: the submitted participant's draft autosave is rejected with
no state change. -/
theorem claim9_witness :
    (upsertList c9state c9args).1 = c9state ∧
      exceptOk (upsertList c9state c9args).2 = false :=
  claim9_submitted_immutable c9state c9args (by decide)

/-- C8 counterexample: a draft autosave with self-rank -5 succeeds and
stores self-rank 0, which is not within the claimed range 1..requiredNames
(the code clamps with `max(0, ...)`, not `max(1, ...)`). -/
theorem claim8_counterexample :
    (upsertList exBase c8args).2 = .ok ListStatus.draft ∧
    (⟨"p@x.co", "a", 0⟩ : ListItem) ∈ (upsertList exBase c8args).1.list_items ∧
    ¬ ((1 : Int) ≤ 0) := by decide

/-- C8 amended: on a successful draft autosave every stored self-rank of the
caller is the resolved rank clamped into 0..requiredNames (inclusive), so
zero and negative inputs persist as 0. -/
theorem claim8_amended_clamp (s : SessionState) (a : UpsertArgs)
    (st : ListStatus) (hfin : a.finalize = false)
    (hok : (upsertList s a).2 = .ok st) :
    ∀ item ∈ (upsertList s a).1.list_items,
      item.owner_uid = normalizeEmail a.email →
      0 ≤ item.self_rank ∧ item.self_rank ≤ (effectiveMax s a : Int) := by
  have hcore := upsertList_ok_inv hok
  obtain ⟨c0, _, _, _, _, hp⟩ := upsertCore_ok_inv hcore
  have hs1 : (upsertList s a).1 =
      upsertWrite s a (clampDraft c0 (effectiveMax s a) a.finalize) :=
    congrArg Prod.fst hp
  intro item hmem howner
  rw [hs1] at hmem
  unfold upsertWrite recompute at hmem
  simp only [List.mem_append] at hmem
  rcases hmem with hl | hr
  · have hpred := List.of_mem_filter hl
    simp only [decide_eq_true_eq] at hpred
    exact absurd howner hpred
  · obtain ⟨q, hq, rfl⟩ := List.mem_map.mp hr
    unfold clampDraft at hq
    rw [if_neg (by simp [hfin])] at hq
    obtain ⟨r, _, rfl⟩ := List.mem_map.mp hq
    refine ⟨le_max_left 0 _, max_le (Int.natCast_nonneg _) (min_le_right _ _)⟩

/-- C8 amended witness: the concrete draft save stores rank 0, which lies in
0..8. -/
theorem claim8_amended_witness :
    0 ≤ (ListItem.mk "p@x.co" "a" 0).self_rank ∧
      (ListItem.mk "p@x.co" "a" 0).self_rank ≤ (effectiveMax exBase c8args : Int) :=
  claim8_amended_clamp exBase c8args ListStatus.draft (by decide) (by decide)
    ⟨"p@x.co", "a", 0⟩ (by decide) (by decide)

/-- Inversion of a successful `submitScoreCore`: the rank-reuse scan found
nothing and the result is the upsert write. -/
theorem submitScoreCore_ok_inv {s : SessionState} {a : ScoreArgs}
    {s' : SessionState} (h : submitScoreCore s a = .ok s') :
    scoreConflict s a = false ∧
    s' = applyScoreWrite s (normalizeEmail a.list_owner)
      (normalizeEmail a.email) (pyStrip a.name) a.value := by
  unfold submitScoreCore at h
  cases hp : scorePre s a with
  | error e => rw [hp] at h; exact absurd h (by simp)
  | ok u =>
    rw [hp] at h
    simp only at h
    split_ifs at h with hc
    exact ⟨by simpa using hc, (Except.ok.inj h).symm⟩

/-- Inversion of a successful `submitScore`. -/
theorem submitScore_ok_inv {s : SessionState} {a : ScoreArgs}
    (h : (submitScore s a).2 = none) :
    scoreConflict s a = false ∧
    (submitScore s a).1 = applyScoreWrite s (normalizeEmail a.list_owner)
      (normalizeEmail a.email) (pyStrip a.name) a.value := by
  unfold submitScore at h ⊢
  cases hcore : submitScoreCore s a with
  | error e => rw [hcore] at h; exact absurd h (by simp)
  | ok s' =>
    obtain ⟨hc, rfl⟩ := submitScoreCore_ok_inv hcore
    exact ⟨hc, rfl⟩

/-- A row of the updated score list is an old row or the updated row. -/
theorem mem_updateFirstScore {o r n : String} {v : Int} :
    ∀ (l : List ScoreRow) {x : ScoreRow}, x ∈ updateFirstScore o r n v l →
      x ∈ l ∨ ∃ u ∈ l, scoreKeyMatch o r n u ∧
        x = { u with score_value := v } := by
  intro l
  induction l with
  | nil => intro x hx; simp [updateFirstScore] at hx
  | cons a t ih =>
    intro x hx
    unfold updateFirstScore at hx
    split_ifs at hx with hk
    · rcases List.mem_cons.mp hx with rfl | hxt
      · exact Or.inr ⟨a, List.mem_cons_self a t, hk, rfl⟩
      · exact Or.inl (List.mem_cons_of_mem _ hxt)
    · rcases List.mem_cons.mp hx with rfl | hxt
      · exact Or.inl (List.mem_cons_self x t)
      · rcases ih hxt with hx1 | ⟨u, hu, huk, he⟩
        · exact Or.inl (List.mem_cons_of_mem _ hx1)
        · exact Or.inr ⟨u, List.mem_cons_of_mem _ hu, huk, he⟩

/-- The in-place update keeps score-values unique per (listOwner, rater)
when no other name of that pair already holds the new value. -/
theorem valueUniq_updateFirst {l : List ScoreRow} {o r n : String} {v : Int}
    (hval : scoresValueUniq l) (hkey : scoresKeyUniq l)
    (hnc : ∀ x ∈ l, x.list_owner_uid = o → x.rater_uid = r →
      x.score_value = v → x.name = n) :
    scoresValueUniq (updateFirstScore o r n v l) := by
  induction l with
  | nil => exact List.Pairwise.nil
  | cons a t ih =>
    obtain ⟨ha, ht⟩ := List.pairwise_cons.mp hval
    obtain ⟨hka, hkt⟩ := List.pairwise_cons.mp hkey
    unfold updateFirstScore
    split_ifs with hk
    · refine List.pairwise_cons.mpr ⟨?_, ht⟩
      intro b hb hown hrat hv
      have hbo : b.list_owner_uid = o := by
        simp only at hown; rw [← hown]; exact hk.1
      have hbr : b.rater_uid = r := by
        simp only at hrat; rw [← hrat]; exact hk.2.1
      have hbn : b.name = n := hnc b (List.mem_cons_of_mem _ hb) hbo hbr hv.symm
      exact hka b hb ⟨hk.1.trans hbo.symm, hk.2.1.trans hbr.symm,
        hk.2.2.trans hbn.symm⟩
    · refine List.pairwise_cons.mpr
        ⟨?_, ih ht hkt (fun x hx => hnc x (List.mem_cons_of_mem _ hx))⟩
      intro b hb hown hrat hv
      rcases mem_updateFirstScore t hb with hbt | ⟨u, hu, huk, rfl⟩
      · exact ha b hbt hown hrat hv
      · simp only at hown hrat hv
        have hao : a.list_owner_uid = o := by rw [hown]; exact huk.1
        have har : a.rater_uid = r := by rw [hrat]; exact huk.2.1
        have han : a.name = n := hnc a (List.mem_cons_self a t) hao har hv
        exact hk ⟨hao, har, han⟩

/-- Appending a fresh-named row keeps score-values unique per
(listOwner, rater) when no row of the pair holds the new value. -/
theorem valueUniq_append {l : List ScoreRow} {o r n : String} {v : Int}
    (hval : scoresValueUniq l)
    (hno : ∀ x ∈ l, x.list_owner_uid = o → x.rater_uid = r →
      ¬ (x.score_value = v ∧ x.name ≠ n))
    (hnew : ∀ x ∈ l, x.list_owner_uid = o → x.rater_uid = r → x.name ≠ n) :
    scoresValueUniq (l ++ [⟨o, r, n, v⟩]) := by
  rw [scoresValueUniq, List.pairwise_append]
  refine ⟨hval, List.pairwise_singleton _ _, ?_⟩
  intro x hx y hy
  simp only [List.mem_singleton] at hy
  subst hy
  intro hown hrat hv
  simp only at hown hrat hv
  exact hnew x hx hown hrat (hno x hx hown hrat |> fun hcon =>
    by_contra fun hne => hcon ⟨hv, hne⟩)

/-- At most one row carries a given (listOwner, rater, name) key. -/
theorem length_filter_keyP_le_one {l : List ScoreRow}
    (hkey : scoresKeyUniq l) (o r n : String) :
    (l.filter (fun x => scoreKeyMatch o r n x)).length ≤ 1 := by
  induction l with
  | nil => simp
  | cons a t ih =>
    obtain ⟨hka, hkt⟩ := List.pairwise_cons.mp hkey
    by_cases hpa : scoreKeyMatch o r n a
    · rw [List.filter_cons_of_pos (by simpa using hpa)]
      have hnil : t.filter (fun x => scoreKeyMatch o r n x) = [] := by
        rw [List.filter_eq_nil_iff]
        intro x hx hpx
        simp only [decide_eq_true_eq] at hpx
        exact hka x hx ⟨hpa.1.trans hpx.1.symm, hpa.2.1.trans hpx.2.1.symm,
          hpa.2.2.trans hpx.2.2.symm⟩
      rw [hnil]
      simp
    · rw [List.filter_cons_of_neg (by simpa using hpa)]
      exact ih hkt

/-- The in-place update preserves the number of rows carrying the key. -/
theorem length_filter_keyP_updateFirst (o r n : String) (v : Int) :
    ∀ l : List ScoreRow,
      ((updateFirstScore o r n v l).filter
        (fun x => scoreKeyMatch o r n x)).length =
      (l.filter (fun x => scoreKeyMatch o r n x)).length
  | [] => rfl
  | a :: t => by
    unfold updateFirstScore
    split_ifs with hk
    · rw [List.filter_cons_of_pos (by simp [scoreKeyMatch, hk.1, hk.2.1, hk.2.2]),
        List.filter_cons_of_pos (by simpa [scoreKeyMatch] using hk)]
      simp [List.length_cons]
    · rw [List.filter_cons_of_neg (by simpa [scoreKeyMatch] using hk),
        List.filter_cons_of_neg (by simpa [scoreKeyMatch] using hk)]
      exact length_filter_keyP_updateFirst o r n v t

/-- After the in-place update, every row carrying the key holds the new
value (key uniqueness guarantees the updated row is the only carrier). -/
theorem keyP_value_updateFirst {l : List ScoreRow} {o r n : String} {v : Int}
    (hkey : scoresKeyUniq l) :
    ∀ x ∈ updateFirstScore o r n v l, scoreKeyMatch o r n x →
      x.score_value = v := by
  induction l with
  | nil => intro x hx; simp [updateFirstScore] at hx
  | cons a t ih =>
    obtain ⟨hka, hkt⟩ := List.pairwise_cons.mp hkey
    unfold updateFirstScore
    split_ifs with hk
    · intro x hx hpx
      rcases List.mem_cons.mp hx with rfl | hxt
      · rfl
      · exact absurd ⟨hk.1.trans hpx.1.symm, hk.2.1.trans hpx.2.1.symm,
          hk.2.2.trans hpx.2.2.symm⟩ (hka x hxt)
    · intro x hx hpx
      rcases List.mem_cons.mp hx with rfl | hxt
      · exact absurd hpx hk
      · exact ih hkt x hxt hpx

/-- With no conflict found, every score of the pair holding the value also
carries the submitted name. -/
theorem no_conflict_names {s : SessionState} {a : ScoreArgs}
    (hc : scoreConflict s a = false) :
    ∀ x ∈ s.scores, x.list_owner_uid = normalizeEmail a.list_owner →
      x.rater_uid = normalizeEmail a.email →
      ¬ (x.score_value = a.value ∧ x.name ≠ pyStrip a.name) := by
  intro x hx ho hr hcon
  have ht : scoreConflict s a = true := by
    unfold scoreConflict
    rw [List.any_eq_true]
    exact ⟨x, List.mem_filter.mpr ⟨hx, by simp [ho, hr]⟩,
      by simp [hcon.1, hcon.2]⟩
  rw [ht] at hc
  exact Bool.noConfusion hc

/-- The score rows after the upsert write: in-place update when the name was
already scored, append otherwise. -/
theorem applyScoreWrite_scores (s : SessionState) (o r n : String) (v : Int) :
    (applyScoreWrite s o r n v).scores =
      if (s.scores.filter (fun x => x.list_owner_uid = o ∧ x.rater_uid = r)).any
          (fun x => x.name = n) = true then
        updateFirstScore o r n v s.scores
      else s.scores ++ [⟨o, r, n, v⟩] := by
  unfold applyScoreWrite recompute
  rfl

/-- C5: assuming the stored invariants (value uniqueness per pair, key
uniqueness), a conflicting value is rejected without a write, a successful
call preserves value uniqueness, and re-scoring an already-scored name
leaves exactly one row for that key, now carrying the new value. -/
theorem claim5_rank_uniqueness (s : SessionState) (a : ScoreArgs)
    (hval : scoresValueUniq s.scores) (hkey : scoresKeyUniq s.scores) :
    ((∃ x ∈ s.scores, x.list_owner_uid = normalizeEmail a.list_owner ∧
        x.rater_uid = normalizeEmail a.email ∧ x.score_value = a.value ∧
        x.name ≠ pyStrip a.name) →
      (submitScore s a).1 = s ∧ ((submitScore s a).2).isSome = true) ∧
    ((submitScore s a).2 = none →
      scoresValueUniq ((submitScore s a).1).scores) ∧
    ((submitScore s a).2 = none →
      (∃ x ∈ s.scores, scoreKeyMatch (normalizeEmail a.list_owner)
        (normalizeEmail a.email) (pyStrip a.name) x) →
      (((submitScore s a).1).scores.filter
        (fun x => scoreKeyMatch (normalizeEmail a.list_owner)
          (normalizeEmail a.email) (pyStrip a.name) x)).length = 1 ∧
      (∀ x ∈ ((submitScore s a).1).scores,
        scoreKeyMatch (normalizeEmail a.list_owner) (normalizeEmail a.email)
          (pyStrip a.name) x → x.score_value = a.value)) := by
  refine ⟨?_, ?_, ?_⟩
  · rintro ⟨x, hx, ho, hr, hv, hn⟩
    have hcn : scoreConflict s a = true := by
      unfold scoreConflict
      rw [List.any_eq_true]
      exact ⟨x, List.mem_filter.mpr ⟨hx, by simp [ho, hr]⟩, by simp [hv, hn]⟩
    apply submitScore_of_err
    unfold submitScoreCore
    cases hp : scorePre s a with
    | error e => rfl
    | ok u => rw [if_pos hcn]; rfl
  · intro hnone
    obtain ⟨hc, hw⟩ := submitScore_ok_inv hnone
    rw [hw, scoresValueUniq, applyScoreWrite_scores]
    split_ifs with hb
    · refine valueUniq_updateFirst hval hkey ?_
      intro x hx ho hr hv
      by_contra hn
      exact no_conflict_names hc x hx ho hr ⟨hv, hn⟩
    · refine valueUniq_append hval (no_conflict_names hc) ?_
      intro x hx ho hr hxn
      exact hb (by
        rw [List.any_eq_true]
        exact ⟨x, List.mem_filter.mpr ⟨hx, by simp [ho, hr]⟩, by simp [hxn]⟩)
  · intro hnone hex
    obtain ⟨hc, hw⟩ := submitScore_ok_inv hnone
    obtain ⟨x, hx, hpx⟩ := hex
    have hb : (s.scores.filter (fun y => y.list_owner_uid =
        normalizeEmail a.list_owner ∧ y.rater_uid = normalizeEmail a.email)).any
        (fun y => y.name = pyStrip a.name) = true := by
      rw [List.any_eq_true]
      exact ⟨x, List.mem_filter.mpr ⟨hx, by simp [hpx.1, hpx.2.1]⟩,
        by simp [hpx.2.2]⟩
    rw [hw, applyScoreWrite_scores, if_pos hb]
    constructor
    · rw [length_filter_keyP_updateFirst]
      have h1 := length_filter_keyP_le_one hkey (normalizeEmail a.list_owner)
        (normalizeEmail a.email) (pyStrip a.name)
      have hmem : x ∈ s.scores.filter (fun y => scoreKeyMatch
          (normalizeEmail a.list_owner) (normalizeEmail a.email)
          (pyStrip a.name) y) :=
        List.mem_filter.mpr ⟨hx, by simpa using hpx⟩
      have h2 := List.length_pos.mpr (List.ne_nil_of_mem hmem)
      omega
    · exact keyP_value_updateFirst hkey

/-- C5 witness: a fresh successful score submission yields a score table
with unique values per (listOwner, rater). -/
theorem claim5_witness :
    scoresValueUniq ((submitScore c5state c5args).1).scores :=
  (claim5_rank_uniqueness c5state c5args (by constructor) (by constructor)).2.1
    (by decide)

/-- Lookup after a dict bump: the bumped key gains `v`, others unchanged. -/
theorem alookup_bump (k m : String) (v : Int) :
    ∀ acc : List (String × Int),
      alookup (bump acc k v) m =
        if m = k then some ((alookup acc k).getD 0 + v) else alookup acc m
  | [] => by
    by_cases h : m = k
    · subst h
      simp [bump, alookup]
    · have h' : ¬(k = m) := fun hh => h hh.symm
      simp [bump, alookup, h, h']
  | p :: rest => by
    by_cases hp : p.1 = k
    · by_cases hm : m = k
      · subst hm
        simp [bump, hp, alookup]
      · have h' : ¬(k = m) := fun hh => hm hh.symm
        have hpm : ¬(p.1 = m) := by rw [hp]; exact h'
        simp [bump, hp, alookup, hm, hpm, h']
    · by_cases hm : m = k
      · subst hm
        simp only [bump, if_neg hp, alookup, if_neg hp]
        rw [alookup_bump m m v rest]
        simp
      · simp only [bump, if_neg hp, alookup]
        by_cases hpm : p.1 = m
        · simp [hpm, hm]
        · rw [if_neg hpm, if_neg hpm, alookup_bump k m v rest, if_neg hm]

/-- Folding all score rows into the totals dict, over any accumulator. -/
theorem totals_aux (n : String) :
    ∀ (rows : List ScoreRow) (acc : List (String × Int)),
      alookup (rows.foldl (fun ac r => bump ac r.name r.score_value) acc) n =
        match alookup acc n with
        | some t => some (t + sumScores rows n)
        | none => if rows.any (fun r => r.name = n) then
            some (sumScores rows n)
          else none
  | [], acc => by
    cases h : alookup acc n <;> simp [h, sumScores]
  | r :: rest, acc => by
    simp only [List.foldl_cons]
    rw [totals_aux n rest (bump acc r.name r.score_value), alookup_bump]
    by_cases hn : n = r.name
    · rw [if_pos hn]
      have hrn : r.name = n := hn.symm
      have hany : (r :: rest).any (fun q => q.name = n) = true := by simp [hrn]
      have hsum : sumScores (r :: rest) n = r.score_value + sumScores rest n := by
        unfold sumScores
        rw [List.filter_cons_of_pos (by simp [hrn])]
        simp
      cases ha : alookup acc n with
      | none =>
        have ha' : alookup acc r.name = none := by rw [hrn]; exact ha
        rw [ha']
        simp [hany, hsum]
      | some t =>
        have ha' : alookup acc r.name = some t := by rw [hrn]; exact ha
        rw [ha']
        simp [hsum, add_assoc]
    · have hrn : ¬(r.name = n) := fun hh => hn hh.symm
      rw [if_neg hn]
      have hsum : sumScores (r :: rest) n = sumScores rest n := by
        unfold sumScores
        rw [List.filter_cons_of_neg (by simp [hrn])]
      have hany : (r :: rest).any (fun q => q.name = n) =
          rest.any (fun q => q.name = n) := by simp [hrn]
      cases ha : alookup acc n with
      | none => simp [hsum, hany]
      | some t => simp [hsum]

/-- `_score_totals` computes, per name, the sum of score-values over all
Score rows bearing that name (none when no row bears it). -/
theorem alookup_scoreTotals (rows : List ScoreRow) (n : String) :
    alookup (scoreTotals rows) n =
      if rows.any (fun r => r.name = n) then some (sumScores rows n)
      else none := by
  unfold scoreTotals
  rw [totals_aux]
  simp [alookup]

/-- The key list after a bump. -/
theorem keys_bump (acc : List (String × Int)) (k : String) (v : Int) :
    (bump acc k v).map Prod.fst =
      if k ∈ acc.map Prod.fst then acc.map Prod.fst
      else acc.map Prod.fst ++ [k] := by
  induction acc with
  | nil => simp [bump]
  | cons p rest ih =>
    simp only [bump]
    split_ifs with hp hin hin
    · simp [List.map_cons, hp]
    · exact absurd (by
        rw [List.map_cons]
        exact List.mem_cons.mpr (Or.inl hp.symm)) hin
    · have hm : k ∈ rest.map Prod.fst := by
        rw [List.map_cons, List.mem_cons] at hin
        rcases hin with h1 | h2
        · exact absurd h1.symm hp
        · exact h2
      simp [List.map_cons, ih, hm]
    · have hm : ¬ k ∈ rest.map Prod.fst := fun hc =>
        hin (by rw [List.map_cons]; exact List.mem_cons.mpr (Or.inr hc))
      simp [List.map_cons, ih, hm]

/-- Bumping preserves key distinctness. -/
theorem nodup_keys_bump {acc : List (String × Int)}
    (h : (acc.map Prod.fst).Nodup) (k : String) (v : Int) :
    ((bump acc k v).map Prod.fst).Nodup := by
  rw [keys_bump]
  split_ifs with hm
  · exact h
  · rw [List.nodup_append]
    exact ⟨h, List.nodup_singleton k, by simpa using hm⟩

/-- The totals dict has distinct keys. -/
theorem nodup_keys_scoreTotals_aux :
    ∀ (rows : List ScoreRow) (acc : List (String × Int)),
      (acc.map Prod.fst).Nodup →
      (((rows.foldl (fun ac r => bump ac r.name r.score_value) acc)).map
        Prod.fst).Nodup
  | [], _, h => h
  | r :: rest, _, h =>
    nodup_keys_scoreTotals_aux rest _ (nodup_keys_bump h r.name r.score_value)

/-- `_score_totals` has distinct keys. -/
theorem nodup_keys_scoreTotals (rows : List ScoreRow) :
    ((scoreTotals rows).map Prod.fst).Nodup :=
  nodup_keys_scoreTotals_aux rows [] (by simp)

/-- With distinct keys, every entry is found by lookup. -/
theorem alookup_eq_of_mem_nodup :
    ∀ {l : List (String × Int)}, (l.map Prod.fst).Nodup →
      ∀ {p : String × Int}, p ∈ l → alookup l p.1 = some p.2 := by
  intro l
  induction l with
  | nil => intro _ p hp; simp at hp
  | cons q rest ih =>
    intro hnd p hp
    rw [List.map_cons, List.nodup_cons] at hnd
    obtain ⟨hq, hrest⟩ := hnd
    rcases List.mem_cons.mp hp with rfl | hpr
    · simp [alookup]
    · have hne : ¬(q.1 = p.1) := fun hh =>
        hq (hh ▸ List.mem_map_of_mem Prod.fst hpr)
      rw [alookup, if_neg hne]
      exact ih hrest hpr

/-- A successful lookup exhibits a member. -/
theorem mem_of_alookup :
    ∀ {l : List (String × Int)} {k : String} {t : Int},
      alookup l k = some t → (k, t) ∈ l := by
  intro l
  induction l with
  | nil => intro k t h; simp [alookup] at h
  | cons q rest ih =>
    intro k t h
    rw [alookup] at h
    split_ifs at h with hq
    · obtain ⟨q1, q2⟩ := q
      simp only at hq
      obtain rfl := hq
      obtain rfl := Option.some.inj h
      exact List.mem_cons_self _ _
    · exact List.mem_cons_of_mem _ (ih h)

/-- A left fold of `min` is a lower bound of its seed and its list. -/
theorem foldl_min_le (l : List Int) (a : Int) :
    l.foldl min a ≤ a ∧ ∀ x ∈ l, l.foldl min a ≤ x := by
  induction l generalizing a with
  | nil => simp
  | cons b t ih =>
    simp only [List.foldl_cons]
    obtain ⟨h1, h2⟩ := ih (min a b)
    refine ⟨le_trans h1 (min_le_left a b), ?_⟩
    intro x hx
    rcases List.mem_cons.mp hx with rfl | hxt
    · exact le_trans h1 (min_le_right a x)
    · exact h2 x hxt

/-- A left fold of `min` is its seed or one of its elements. -/
theorem foldl_min_mem (l : List Int) (a : Int) :
    l.foldl min a = a ∨ l.foldl min a ∈ l := by
  induction l generalizing a with
  | nil => exact Or.inl rfl
  | cons b t ih =>
    simp only [List.foldl_cons]
    rcases ih (min a b) with h | h
    · rcases min_choice a b with hc | hc
      · exact Or.inl (h.trans hc)
      · refine Or.inr ?_
        rw [h, hc]
        exact List.mem_cons_self b t
    · exact Or.inr (List.mem_cons_of_mem _ h)

/-- `_first_place_tie_names` collects exactly the names whose stored total
is minimal (keys assumed distinct, as `_score_totals` produces). -/
theorem mem_firstPlaceTieNames {totals : List (String × Int)}
    (hnd : (totals.map Prod.fst).Nodup) (n : String) :
    n ∈ firstPlaceTieNames totals ↔
      ∃ t, alookup totals n = some t ∧ ∀ p ∈ totals, t ≤ p.2 := by
  cases totals with
  | nil => simp [firstPlaceTieNames, alookup]
  | cons p rest =>
    unfold firstPlaceTieNames
    constructor
    · intro hn
      obtain ⟨q, hq, hq1⟩ := List.mem_map.mp hn
      have hqmem : q ∈ p :: rest := (List.mem_filter.mp hq).1
      have hqval : q.2 = (rest.map (fun x => x.2)).foldl min p.2 := by
        simpa using (List.mem_filter.mp hq).2
      refine ⟨q.2, ?_, ?_⟩
      · rw [← hq1]
        exact alookup_eq_of_mem_nodup hnd hqmem
      · intro x hx
        rw [hqval]
        rcases List.mem_cons.mp hx with rfl | hxr
        · exact (foldl_min_le _ _).1
        · exact (foldl_min_le _ _).2 x.2 (List.mem_map_of_mem _ hxr)
    · rintro ⟨t, hlk, hmin⟩
      have hmemt : (n, t) ∈ p :: rest := mem_of_alookup hlk
      have hle : (rest.map (fun x => x.2)).foldl min p.2 ≤ t := by
        rcases List.mem_cons.mp hmemt with heq | hr
        · rw [show t = p.2 from congrArg Prod.snd heq.symm |>.symm]
          exact (foldl_min_le _ _).1
        · exact (foldl_min_le _ _).2 t
            (by simpa using List.mem_map_of_mem Prod.snd hr)
      have hge : t ≤ (rest.map (fun x => x.2)).foldl min p.2 := by
        rcases foldl_min_mem (rest.map (fun x => x.2)) p.2 with h | h
        · rw [h]
          exact hmin p (List.mem_cons_self p rest)
        · obtain ⟨q, hq, hq2⟩ := List.mem_map.mp h
          rw [← hq2]
          exact hmin q (List.mem_cons_of_mem _ hq)
      have ht : t = (rest.map (fun x => x.2)).foldl min p.2 :=
        le_antisymm hge hle
      exact List.mem_map.mpr ⟨(n, t),
        List.mem_filter.mpr ⟨hmemt, by simp [ht]⟩, rfl⟩

/-- The first-place set of a non-empty totals dict is non-empty. -/
theorem firstPlace_ne_nil {totals : List (String × Int)} (h : totals ≠ []) :
    firstPlaceTieNames totals ≠ [] := by
  cases totals with
  | nil => exact absurd rfl h
  | cons p rest =>
    unfold firstPlaceTieNames
    intro hc
    rw [List.map_eq_nil_iff, List.filter_eq_nil_iff] at hc
    rcases foldl_min_mem (rest.map (fun x => x.2)) p.2 with hm | hm
    · exact hc p (List.mem_cons_self p rest) (by simp [hm])
    · obtain ⟨q, hq, hq2⟩ := List.mem_map.mp hm
      exact hc q (List.mem_cons_of_mem _ hq) (by simp [hq2])

/-- C6: tie-break start totals each name across all Score rows of the
session, collects the names achieving the minimum total, fails with no state
change when fewer than two tie, and otherwise activates the tie-break with
exactly that set, clearing the final winners and all prior votes. -/
theorem claim6_tiebreak_start (s : SessionState) (actor : String)
    (howner : s.created_by = normalizeEmail actor)
    (hnc : s.status ≠ Status.completed)
    (hlock : s.invites_locked = true)
    (hact : s.tiebreak_active = false) :
    (∀ n, alookup (scoreTotals s.scores) n =
      (if s.scores.any (fun r => r.name = n) then some (sumScores s.scores n)
       else none)) ∧
    (∀ n, n ∈ firstPlaceTieNames (scoreTotals s.scores) ↔
      ∃ t, alookup (scoreTotals s.scores) n = some t ∧
        ∀ p ∈ scoreTotals s.scores, t ≤ p.2) ∧
    ((firstPlaceTieNames (scoreTotals s.scores)).length < 2 →
      tiebreakStart s actor = (s, .error .noTie)) ∧
    (2 ≤ (firstPlaceTieNames (scoreTotals s.scores)).length →
      tiebreakStart s actor =
        ({ s with
            tiebreak_active := true
            tiebreak_names := firstPlaceTieNames (scoreTotals s.scores)
            final_winners := []
            tiebreak_votes := [] },
          .ok (firstPlaceTieNames (scoreTotals s.scores)))) := by
  refine ⟨fun n => alookup_scoreTotals s.scores n,
    fun n => mem_firstPlaceTieNames (nodup_keys_scoreTotals s.scores) n,
    ?_, ?_⟩
  · intro hlt
    simp only [tiebreakStart]
    rw [if_neg (fun hh => hh howner), if_neg hnc, if_neg (by simp [hlock]),
      if_neg (by simp [hact]), if_pos hlt]
  · intro hge
    simp only [tiebreakStart]
    rw [if_neg (fun hh => hh howner), if_neg hnc, if_neg (by simp [hlock]),
      if_neg (by simp [hact]), if_neg (by omega)]

/-- C6 witness: on the concrete two-way tie, starting activates the
tie-break with both names. -/
theorem claim6_witness :
    tiebreakStart c6state "o@x.co" =
      ({ c6state with
          tiebreak_active := true
          tiebreak_names := ["a", "b"]
          final_winners := []
          tiebreak_votes := [] }, .ok ["a", "b"]) := by
  have h := (claim6_tiebreak_start c6state "o@x.co" (by decide) (by decide)
    (by decide) (by decide)).2.2.2 (by decide)
  rw [h]
  decide

/-- Membership in the first-occurrence deduplication. -/
theorem mem_dedupFirstAux :
    ∀ (l seen : List String) (x : String),
      x ∈ dedupFirstAux seen l ↔ x ∈ l ∧ x ∉ seen
  | [], seen, x => by simp [dedupFirstAux]
  | y :: t, seen, x => by
    unfold dedupFirstAux
    split_ifs with hy
    · rw [mem_dedupFirstAux t seen x]
      constructor
      · rintro ⟨hxt, hxs⟩
        exact ⟨List.mem_cons_of_mem _ hxt, hxs⟩
      · rintro ⟨hx, hxs⟩
        rcases List.mem_cons.mp hx with rfl | hxt
        · exact absurd hy hxs
        · exact ⟨hxt, hxs⟩
    · rw [List.mem_cons, mem_dedupFirstAux t (y :: seen) x]
      constructor
      · rintro (rfl | ⟨hxt, hxs⟩)
        · exact ⟨List.mem_cons_self _ _, hy⟩
        · exact ⟨List.mem_cons_of_mem _ hxt,
            fun hc => hxs (List.mem_cons_of_mem _ hc)⟩
      · rintro ⟨hx, hxs⟩
        rcases List.mem_cons.mp hx with rfl | hxt
        · exact Or.inl rfl
        · by_cases hxy : x = y
          · exact Or.inl hxy
          · refine Or.inr ⟨hxt, fun hc => ?_⟩
            rcases List.mem_cons.mp hc with h1 | h2
            · exact hxy h1
            · exact hxs h2

/-- The first-occurrence deduplication has no duplicates. -/
theorem nodup_dedupFirstAux :
    ∀ (l seen : List String), (dedupFirstAux seen l).Nodup
  | [], _ => List.nodup_nil
  | y :: t, seen => by
    unfold dedupFirstAux
    split_ifs with hy
    · exact nodup_dedupFirstAux t seen
    · rw [List.nodup_cons]
      refine ⟨fun hc => ?_, nodup_dedupFirstAux t (y :: seen)⟩
      exact ((mem_dedupFirstAux t (y :: seen) y).mp hc).2 (List.mem_cons_self _ _)

/-- A lookup succeeds exactly on the key list. -/
theorem alookup_isSome_mem :
    ∀ (l : List (String × Int)) (k : String),
      (alookup l k).isSome = true ↔ k ∈ l.map Prod.fst
  | [], k => by simp [alookup]
  | p :: rest, k => by
    rw [alookup]
    split_ifs with hp
    · simp [hp]
    · have hne : ¬(k = p.1) := fun hh => hp hh.symm
      rw [List.map_cons]
      simp [alookup_isSome_mem rest k, hne]

/-- The guarded vote fold never changes the key list. -/
theorem closeTotals_keys_aux :
    ∀ (votes : List TieBreakVote) (acc : List (String × Int)),
      ((votes.foldl (fun ac v => if (alookup ac v.name).isSome then
        bump ac v.name v.rank else ac) acc)).map Prod.fst = acc.map Prod.fst
  | [], _ => rfl
  | v :: rest, acc => by
    simp only [List.foldl_cons]
    by_cases hs : (alookup acc v.name).isSome
    · rw [if_pos hs, closeTotals_keys_aux rest _, keys_bump,
        if_pos ((alookup_isSome_mem acc v.name).mp hs)]
    · rw [if_neg hs, closeTotals_keys_aux rest acc]

/-- The close totals are keyed by the deduplicated tied names. -/
theorem closeTotals_keys (names : List String) (votes : List TieBreakVote) :
    (closeTotals names votes).map Prod.fst = dedupFirstAux [] names := by
  unfold closeTotals
  rw [closeTotals_keys_aux, List.map_map]
  have hcomp : (Prod.fst ∘ fun m : String => (m, (0 : Int))) = id := rfl
  rw [hcomp, List.map_id]

/-- Lookup in the zero-initialized dict. -/
theorem alookup_map_zero :
    ∀ (l : List String) (n : String),
      alookup (l.map (fun m => (m, (0 : Int)))) n =
        if n ∈ l then some 0 else none
  | [], n => by simp [alookup]
  | y :: t, n => by
    simp only [List.map_cons, alookup]
    by_cases hy : y = n
    · simp [hy]
    · have hny : ¬(n = y) := fun hh => hy hh.symm
      rw [if_neg hy, alookup_map_zero t n]
      by_cases hnt : n ∈ t <;> simp [hnt, hny]

/-- Folding the cast votes over any accumulator adds each name's rank sum. -/
theorem closeTotals_aux (n : String) :
    ∀ (votes : List TieBreakVote) (acc : List (String × Int)),
      alookup (votes.foldl (fun ac v => if (alookup ac v.name).isSome then
        bump ac v.name v.rank else ac) acc) n =
      (alookup acc n).map (fun t => t + sumRanks votes n)
  | [], acc => by cases h : alookup acc n <;> simp [h, sumRanks]
  | v :: rest, acc => by
    simp only [List.foldl_cons]
    by_cases hs : (alookup acc v.name).isSome
    · rw [if_pos hs, closeTotals_aux n rest _, alookup_bump]
      by_cases hn : n = v.name
      · rw [if_pos hn]
        obtain ⟨t, ht⟩ := Option.isSome_iff_exists.mp hs
        have ht' : alookup acc n = some t := by rw [hn]; exact ht
        rw [ht, ht']
        have hvn : v.name = n := hn.symm
        have hsum : sumRanks (v :: rest) n = v.rank + sumRanks rest n := by
          unfold sumRanks
          rw [List.filter_cons_of_pos (by simp [hvn])]
          simp
        simp [hsum, add_assoc]
      · rw [if_neg hn]
        have hvn : ¬(v.name = n) := fun hh => hn hh.symm
        have hsum : sumRanks (v :: rest) n = sumRanks rest n := by
          unfold sumRanks
          rw [List.filter_cons_of_neg (by simp [hvn])]
        rw [hsum]
    · rw [if_neg hs, closeTotals_aux n rest acc]
      by_cases hn : n = v.name
      · have hnone : alookup acc n = none := by
          rw [hn]
          exact Option.not_isSome_iff_eq_none.mp hs
        simp [hnone]
      · have hvn : ¬(v.name = n) := fun hh => hn hh.symm
        have hsum : sumRanks (v :: rest) n = sumRanks rest n := by
          unfold sumRanks
          rw [List.filter_cons_of_neg (by simp [hvn])]
        rw [hsum]

/-- The close totals hold, for each tied name, the sum of its cast ranks. -/
theorem alookup_closeTotals (names : List String) (votes : List TieBreakVote)
    (n : String) :
    alookup (closeTotals names votes) n =
      if n ∈ names then some (sumRanks votes n) else none := by
  unfold closeTotals
  rw [closeTotals_aux, alookup_map_zero]
  by_cases hn : n ∈ names
  · rw [if_pos ((mem_dedupFirstAux names [] n).mpr ⟨hn, by simp⟩), if_pos hn]
    simp
  · rw [if_neg (fun hc => hn ((mem_dedupFirstAux names [] n).mp hc).1),
      if_neg hn]
    rfl

/-- C7: closing an active tie-break with zero votes keeps all tied names as
final winners; with votes it keeps exactly the tied names of minimal rank
sum; both deactivate the tie-break, clear the candidate set and force status
`completed`; closing an inactive tie-break returns the stored winners
unchanged. -/
theorem claim7_tiebreak_close (s : SessionState) (actor : String)
    (howner : s.created_by = normalizeEmail actor) :
    (s.tiebreak_active = false →
      tiebreakClose s actor = (s, .ok (s.final_winners, true))) ∧
    (s.tiebreak_active = true → s.tiebreak_votes = [] →
      tiebreakClose s actor =
        ({ s with
            final_winners := s.tiebreak_names
            tiebreak_active := false
            tiebreak_names := []
            status := .completed },
          .ok (s.tiebreak_names, false))) ∧
    (s.tiebreak_active = true → s.tiebreak_votes ≠ [] →
      (tiebreakClose s actor).1.tiebreak_active = false ∧
      (tiebreakClose s actor).1.tiebreak_names = [] ∧
      (tiebreakClose s actor).1.status = Status.completed ∧
      (tiebreakClose s actor).2 =
        .ok ((tiebreakClose s actor).1.final_winners, false) ∧
      (∀ n, n ∈ (tiebreakClose s actor).1.final_winners ↔
        n ∈ s.tiebreak_names ∧ ∀ m ∈ s.tiebreak_names,
          sumRanks s.tiebreak_votes n ≤ sumRanks s.tiebreak_votes m)) := by
  refine ⟨?_, ?_, ?_⟩
  · intro hact
    simp only [tiebreakClose]
    rw [if_neg (fun hh => hh howner), if_pos hact]
  · intro hact hv
    simp only [tiebreakClose]
    rw [if_neg (fun hh => hh howner), if_neg (by simp [hact])]
    simp [hv]
  · intro hact hv
    simp only [tiebreakClose]
    rw [if_neg (fun hh => hh howner), if_neg (by simp [hact]), if_neg hv]
    refine ⟨rfl, rfl, rfl, rfl, ?_⟩
    intro n
    by_cases hnames : s.tiebreak_names = []
    · rw [hnames]
      have htot : closeTotals [] s.tiebreak_votes = [] :=
        List.map_eq_nil_iff.mp ((closeTotals_keys [] s.tiebreak_votes).trans rfl)
      rw [htot]
      simp [firstPlaceTieNames]
    · have htot_ne : closeTotals s.tiebreak_names s.tiebreak_votes ≠ [] := by
        intro hc
        have hk := closeTotals_keys s.tiebreak_names s.tiebreak_votes
        rw [hc] at hk
        cases hna : s.tiebreak_names with
        | nil => exact hnames hna
        | cons y t =>
          have hmem : y ∈ dedupFirstAux [] s.tiebreak_names :=
            (mem_dedupFirstAux _ _ _).mpr
              ⟨by rw [hna]; exact List.mem_cons_self y t, by simp⟩
          rw [← hk] at hmem
          simp at hmem
      have hnd : ((closeTotals s.tiebreak_names s.tiebreak_votes).map
          Prod.fst).Nodup := by
        rw [closeTotals_keys]
        exact nodup_dedupFirstAux _ _
      rw [if_neg (firstPlace_ne_nil htot_ne), mem_firstPlaceTieNames hnd n]
      constructor
      · rintro ⟨t, hlk, hmin⟩
        rw [alookup_closeTotals] at hlk
        split_ifs at hlk with hn
        have ht : t = sumRanks s.tiebreak_votes n :=
          (Option.some.inj hlk).symm
        refine ⟨hn, fun m hm => ?_⟩
        have hmem : (m, sumRanks s.tiebreak_votes m) ∈
            closeTotals s.tiebreak_names s.tiebreak_votes :=
          mem_of_alookup (by rw [alookup_closeTotals, if_pos hm])
        have hms := hmin _ hmem
        rw [← ht]
        exact hms
      · rintro ⟨hn, hmin⟩
        refine ⟨sumRanks s.tiebreak_votes n,
          by rw [alookup_closeTotals, if_pos hn], ?_⟩
        intro p hp
        have hlkp : alookup (closeTotals s.tiebreak_names s.tiebreak_votes)
            p.1 = some p.2 := alookup_eq_of_mem_nodup hnd hp
        rw [alookup_closeTotals] at hlkp
        split_ifs at hlkp with hp1
        rw [← Option.some.inj hlkp]
        exact hmin p.1 hp1

/-- C7 witness: closing the concrete active tie-break with zero votes keeps
both tied names as final winners and completes the session. -/
theorem claim7_witness :
    tiebreakClose c7state "o@x.co" =
      ({ c7state with
          final_winners := c7state.tiebreak_names
          tiebreak_active := false
          tiebreak_names := []
          status := .completed },
        .ok (c7state.tiebreak_names, false)) :=
  (claim7_tiebreak_close c7state "o@x.co" (by decide)).2.1 (by decide) (by decide)

end BabyNames
